import Mathlib

/-!
Shallow embedding of the netron HDF5 reader (`src/source/hdf5.js`) and proofs
about its behaviour.  Pure fragments of the JavaScript source are translated
into executable Lean definitions; reader state is passed explicitly and
JavaScript exceptions are modelled with `Except`.  Machine arithmetic is
modelled on `Nat`/`Int` (JavaScript numbers are exact for the small values
involved; bit operations are on byte values).
-/

namespace hdf5

/-! ## Datatype (`hdf5.Datatype`)

The parsed datatype record carries the class nibble, the 32-bit size, the
24-bit class flags, and — for class 8 (enumerated) — a nested base datatype
plus the parsed name/value tables. -/

inductive Datatype where
  | mk (cls : Nat) (size : Nat) (flags : Nat)
       (base : Option Datatype) (names : List String) (values : List Int)
deriving Repr

def Datatype.cls : Datatype → Nat
  | .mk c _ _ _ _ _ => c

def Datatype.size : Datatype → Nat
  | .mk _ s _ _ _ _ => s

def Datatype.flags : Datatype → Nat
  | .mk _ _ f _ _ _ => f

/-- JavaScript logical AND on two numbers: `a && b` returns `a` when `a` is
falsy (here: `0`) and `b` otherwise.  The source of `Datatype.type` tests
`(this._flags && 0x08) === 0` — a logical AND, not the bitwise `&`. -/
def jsAnd (a b : Nat) : Nat := if a = 0 then a else b

/-- `undefined` coerced to a 32-bit integer by `&`: `undefined & x` is `0` in
JavaScript (`ToInt32(undefined) = 0`). -/
def jsUndefinedAsInt32 : Nat := 0

/-- `hdf5.Datatype.type` (source lines 1037-1091).  Throwing `hdf5.Error`
is modelled by `Except.error`.  Note the source tests
`(this._flags && 0x08) === 0` (logical AND) in the fixed-point case. -/
def Datatype.type : Datatype → Except String String
  | .mk cls size flags base names values =>
    match cls with
    | 0 => -- fixed-point
      if flags &&& 0xfff6 = 0 then
        if jsAnd flags 0x08 = 0 then
          match size with
          | 1 => .ok "uint8"
          | 2 => .ok "uint16"
          | 4 => .ok "uint32"
          | 8 => .ok "uint64"
          | _ => .error "Unsupported uint size."
        else
          match size with
          | 1 => .ok "int8"
          | 2 => .ok "int16"
          | 4 => .ok "int32"
          | 8 => .ok "int64"
          | _ => .error "Unsupported int size."
      else .error "Unsupported datatype class '0'."
    | 1 => -- floating-point
      if size = 2 ∧ flags = 0x0f20 then .ok "float16"
      else if size = 4 ∧ flags = 0x1f20 then .ok "float32"
      else if size = 8 ∧ flags = 0x3f20 then .ok "float64"
      else .error "Unsupported datatype class '1'."
    | 3 => .ok "string"
    | 5 => .ok "uint8"
    | 6 => .ok "compound"
    | 8 => -- enumerated; accesses `this._base.type`, which can itself throw
      match base with
      | none => .error "TypeError: cannot read property of undefined"
      | some b => do
        let bt ← b.type
        if bt = "int8" ∧ names.length = 2 ∧ names.getD 0 "" = "FALSE" ∧
            names.getD 1 "" = "TRUE" ∧ values.length = 2 ∧
            values.getD 0 0 = 0 ∧ values.getD 1 0 = 1 then
          .ok "boolean"
        else .error "Unsupported datatype class '8'."
    | 9 => -- variable-length
      if flags &&& 0x0f = 1 then .ok "char[]"
      else .error "Unsupported datatype class '9'."
    | _ => .error "Unsupported datatype class."

/-- `hdf5.Datatype.littleEndian` (source lines 1093-1101).  The source reads
`this.flags`, but the field is named `this._flags`; `this.flags` is therefore
`undefined` and `(undefined & 0x01) === 0` is `(0 & 0x01) === 0`, i.e. `true`,
independent of the parsed flags. -/
def Datatype.littleEndian (d : Datatype) : Bool :=
  match d.cls with
  | 0 | 1 => (jsUndefinedAsInt32 &&& 0x01) == 0
  | _ => true

/-! ## Group paths (`hdf5.Group` constructor, source lines 83-90)

`this._path = parentPath === '/' ? (parentPath + name) : parentPath + '/' + name`.
`File.read` constructs the root group with `parentPath = ''` and `name = ''`. -/

def groupPath (parentPath name : String) : String :=
  if parentPath = "/" then parentPath ++ name else parentPath ++ "/" ++ name

/-- The root group's path: `File.read` passes `('', '')` to the `Group`
constructor (source lines 57-58 and 68-69). -/
def rootGroupPath : String := groupPath "" ""

/-! ## Group lookup (`hdf5.Group.group`, source lines 100-113)

Children are a name→group map; `group(path)` first tries the whole path as a
single name, then splits at the first `'/'` and recurses.  Paths are modelled
as character lists, the child map as an association list. -/

inductive GroupNode where
  | mk (children : List (List Char × GroupNode))

def GroupNode.children : GroupNode → List (List Char × GroupNode)
  | .mk cs => cs

def GroupNode.group (g : GroupNode) (path : List Char) : Option GroupNode :=
  match g.children.lookup path with
  | some c => some c
  | none =>
    match hfi : path.findIdx? (· == '/') with
    | some i =>
      match g.group (path.take i) with
      | some sub => sub.group (path.drop (i + 1))
      | none => none
    | none => none
termination_by path.length
decreasing_by
  · have hi : i < path.length := (List.findIdx?_eq_some_iff_findIdx_eq.mp hfi).1
    simp only [List.length_take]
    omega
  · have hi : i < path.length := (List.findIdx?_eq_some_iff_findIdx_eq.mp hfi).1
    simp only [List.length_drop]
    omega

/-! ## Reader (`hdf5.BinaryReader`), superblock (`hdf5.File.read`) and the
object-header message dispatcher (`hdf5.DataObjectHeader._readMessage`)

The buffered reader keeps an absolute `off` (set by `seek`) and a relative
`pos` (advanced by `skip`/`take`); `align` rounds the relative position only.
JavaScript exceptions are modelled by `Except HErr`: `hdf5.Error` (`hdfErr`),
plain `Error` (`plain`) and a `TypeError` raised by calling a method that does
not exist (`typeErr`). -/

inductive HErr where
  | hdfErr (msg : String)
  | plain (msg : String)
  | typeErr (msg : String)
deriving Repr, DecidableEq

/-- `offset()`/`length()` results: a number, or JavaScript `undefined` (the
4-byte reader returns `undefined` for the all-ones sentinel). -/
inductive JSNum where
  | num (n : Int)
  | undef
deriving Repr, DecidableEq

structure BReader where
  buf : List Nat
  off : Nat := 0
  pos : Nat := 0
  offSize : Option Nat := none
  lenSize : Option Nat := none
deriving Repr

def BReader.position (r : BReader) : Nat := r.pos + r.off

def BReader.seek (r : BReader) (p : Nat) : Except HErr BReader :=
  if p > r.buf.length then .error (.plain "Unexpected end of file.")
  else .ok { r with off := p, pos := 0 }

def BReader.skip (r : BReader) (n : Nat) : Except HErr BReader :=
  if r.off + (r.pos + n) > r.buf.length then .error (.hdfErr "Unexpected end of file.")
  else .ok { r with pos := r.pos + n }

def BReader.align (r : BReader) (m : Nat) : BReader :=
  if r.pos % m ≠ 0 then { r with pos := (r.pos / m + 1) * m } else r

/-- `take` returns the absolute position of the consumed span and advances. -/
def BReader.take (r : BReader) (n : Nat) : Except HErr (Nat × BReader) := do
  let p := r.off + r.pos
  let r2 ← r.skip n
  .ok (p, r2)

/-- Little-endian value of `n` bytes of `buf` starting at `p`. -/
def readLE (buf : List Nat) (p n : Nat) : Nat :=
  (List.range n).foldr (fun i acc => acc * 256 + buf.getD (p + i) 0) 0

def BReader.byte (r : BReader) : Except HErr (Nat × BReader) := do
  let (p, r2) ← r.take 1
  .ok (r.buf.getD p 0, r2)

def BReader.uint16 (r : BReader) : Except HErr (Nat × BReader) := do
  let (p, r2) ← r.take 2
  .ok (readLE r.buf p 2, r2)

def BReader.uint32 (r : BReader) : Except HErr (Nat × BReader) := do
  let (p, r2) ← r.take 4
  .ok (readLE r.buf p 4, r2)

/-- `Reader.initialize()`: read the superblock's offset-size and length-size
bytes. -/
def BReader.setSizes (r : BReader) : Except HErr BReader := do
  let (a, r2) ← r.byte
  let (b, r3) ← r2.byte
  .ok { r3 with offSize := some a, lenSize := some b }

/-- Shared body of `offset()` and `length()` for a given width. -/
def BReader.sized (r : BReader) (sz : Option Nat) : Except HErr (JSNum × BReader) :=
  match sz with
  | some 8 => do
    let (p, r2) ← r.take 8
    let v := readLE r.buf p 8
    if v = 0xffffffffffffffff then .ok (.num (-1), r2)
    else if v ≥ 9007199254740991 then .error (.plain "64-bit value exceeds safe integer.")
    else .ok (.num v, r2)
  | some 4 => do
    let (v, r2) ← r.uint32
    if v = 0xffffffff then .ok (.undef, r2) else .ok (.num v, r2)
  | _ => .error (.hdfErr "Unsupported offset size.")

def BReader.offsetR (r : BReader) : Except HErr (JSNum × BReader) := r.sized r.offSize

def BReader.lengthR (r : BReader) : Except HErr (JSNum × BReader) := r.sized r.lenSize

/-- `Reader.match(signature)`: compare byte by byte; on the first mismatch,
seek back to the saved position and return `false`. -/
def BReader.matchGo (r : BReader) (saved : Nat) : List Nat → Except HErr (Bool × BReader)
  | [] => .ok (true, r)
  | c :: rest => do
    let (b, r2) ← r.byte
    if c ≠ b then do
      let r3 ← r2.seek saved
      .ok (false, r3)
    else r2.matchGo saved rest

def BReader.matchSig (r : BReader) (sig : List Nat) : Except HErr (Bool × BReader) :=
  r.matchGo r.position sig

/-- Continuation record pushed by message type 0x10. -/
structure OCont where
  offset : JSNum
  length : JSNum
deriving Repr, DecidableEq

/-- The message types `hdf5.DataObjectHeader._readMessage` handles (the cases
of its `switch`). -/
def msgTypes : List Nat :=
  [0x00, 0x01, 0x02, 0x03, 0x04, 0x05, 0x06, 0x08, 0x0A, 0x0B, 0x0C, 0x0D,
   0x10, 0x11, 0x0E, 0x12, 0x15]

/-- `hdf5.DataObjectHeader._readMessage` (source lines 807-862), abstracted
over the per-type content parsers: `sub type flags` stands for the reader
movement performed by the message constructor of that type (`Dataspace`,
`Datatype`, `Attribute`, …).  Two cases are structural and kept concrete:
type 0 (NIL) returns `false` immediately — before the position restore — and
type 0x10 parses an `{offset, length}` continuation, which is returned so that
the header loop can enqueue it.  Every handled non-NIL case ends with
`reader.seek(position); reader.skip(size)`. -/
def readMessage (sub : Nat → Nat → BReader → Except HErr BReader)
    (type size flags : Nat) (r : BReader) :
    Except HErr (Bool × Option OCont × BReader) :=
  let position := r.position
  if type = 0x00 then .ok (false, none, r)
  else if type = 0x10 then do
    let (o, r1) ← r.offsetR
    let (l, r2) ← r1.lengthR
    let r3 ← r2.seek position
    let r4 ← r3.skip size
    .ok (true, some ⟨o, l⟩, r4)
  else if type ∈ msgTypes then do
    let r1 ← sub type flags r
    let r2 ← r1.seek position
    let r3 ← r2.skip size
    .ok (true, none, r3)
  else .error (.hdfErr "Unsupported message type.")

/-- The version-1 object-header message loop (source lines 747-761): for each
of `count` messages read the type/size/flags record, align, dispatch, then
either jump to the next continuation or re-align. -/
def parseDOHv1Loop (sub : Nat → Nat → BReader → Except HErr BReader) :
    Nat → Nat → List OCont → BReader → Except HErr BReader
  | 0, _, _, r => .ok r
  | i + 1, endPos, conts, r => do
    let (type, r1) ← r.uint16
    let (size, r2) ← r1.uint16
    let (flags, r3) ← r2.byte
    let r4 ← r3.skip 3
    let r5 := r4.align 8
    let (next, contOpt, r6) ← readMessage sub type size flags r5
    let conts2 := conts ++ contOpt.toList
    if (next = false ∨ r6.position ≥ endPos) ∧ conts2 ≠ [] then
      match conts2 with
      | c :: rest =>
        match c.offset, c.length with
        | .num o, .num l =>
          if o ≥ 0 ∧ l ≥ 0 then do
            let r7 ← r6.seek o.toNat
            parseDOHv1Loop sub i (o.toNat + l.toNat) rest r7
          else .error (.plain "model boundary: negative continuation address")
        | _, _ => .error (.plain "model boundary: undefined continuation address")
      | [] => .error (.plain "unreachable")
    else
      parseDOHv1Loop sub i endPos conts2 (r6.align 8)

/-- ASCII codes of `'OHDR'`. -/
def ohdrSig : List Nat := [0x4F, 0x48, 0x44, 0x52]

/-- `hdf5.DataObjectHeader` constructor (source lines 730-805): save the
position, seek to the object header, optionally consume an `OHDR` magic,
dispatch on the version, and restore the position.  The version-2 wire format
is not exercised by any theorem below and is left outside the modelled
fragment (a distinctive error). -/
def parseDOH (sub : Nat → Nat → BReader → Except HErr BReader)
    (r : BReader) (addr : Nat) : Except HErr BReader := do
  let position := r.position
  let r1 ← r.seek addr
  let (_, r2) ← r1.matchSig ohdrSig
  let (version, r3) ← r2.byte
  let r4 ←
    match version with
    | 1 => do
      let r4 ← r3.skip 1
      let (count, r5) ← r4.uint16
      let (_, r6) ← r5.uint32
      let (ohSize, r7) ← r6.uint32
      let r8 := r7.align 8
      parseDOHv1Loop sub count (r8.position + ohSize) [] r8
    | 2 => .error (.plain "model boundary: version 2 object header")
    | _ => .error (.hdfErr "Unsupported data object header version.")
  r4.seek position

/-- `hdf5.SymbolTableEntry` (source lines 704-726). -/
structure STE where
  linkNameOffset : JSNum
  objectHeaderAddress : JSNum
  cacheType : Nat
  treeAddress : Option JSNum
  heapAddress : Option JSNum
deriving Repr, DecidableEq

def parseSTE (r : BReader) : Except HErr (STE × BReader) := do
  let (lno, r1) ← r.offsetR
  let (oha, r2) ← r1.offsetR
  let (ct, r3) ← r2.uint32
  let r4 ← r3.skip 4
  let (ta, ha, r5) ←
    (match ct with
     | 0 => .ok (none, none, r4)
     | 1 => do
       let position := r4.position
       let (t, r5) ← r4.offsetR
       let (h, r6) ← r5.offsetR
       let r7 ← r6.seek position
       .ok (some t, some h, r7)
     | _ => .error (.hdfErr "Unsupported cache type.") :
       Except HErr (Option JSNum × Option JSNum × BReader))
  let r6 ← r5.skip 16
  .ok (⟨lno, oha, ct, ta, ha⟩, r6)

/-- The observable outcome of `hdf5.File.read`: the superblock version, the
parsed base address, and (for v0/v1) the root symbol-table entry the root
group is built from.  Producing an `.ok` result corresponds to `read`
returning the root group. -/
structure FileResult where
  version : Nat
  baseAddress : JSNum
  rootEntry : Option STE
deriving Repr, DecidableEq

/-- `hdf5.File.read` (source lines 25-78).  Notes kept from the source:
* in the v0/v1 branch, when `version > 0` the source calls `this.skip(2)` on
  the `hdf5.File` object, which has no `skip` method — a `TypeError`;
* the v0/v1 branch throws `hdf5.Error` when the base address is not zero;
* the v2/v3 branch reads the base address but never checks it, and builds the
  root group from the root object header. -/
def fileRead (sub : Nat → Nat → BReader → Except HErr BReader)
    (buf : List Nat) : Except HErr FileResult := do
  let r : BReader := { buf := buf }
  let r ← r.skip 8
  let (version, r) ← r.byte
  if version = 0 ∨ version = 1 then do
    let (_, r) ← r.byte          -- free-space storage version
    let (_, r) ← r.byte          -- root-group-entry version
    let r ← r.skip 1
    let (_, r) ← r.byte          -- shared-header-message version format
    let r ← r.setSizes           -- reader.initialize()
    let r ← r.skip 1
    let (_, r) ← r.uint16        -- group leaf node K
    let (_, r) ← r.uint16        -- group internal node K
    let r ← r.skip 4
    let r ← (if version > 0 then do
        let (_, _r2) ← r.uint16  -- indexed storage internal node K
        (.error (.typeErr "this.skip is not a function") :
          Except HErr BReader)   -- `this.skip(2)` on hdf5.File
      else .ok r)
    let (base, r) ← r.offsetR
    let (_, r) ← r.offsetR       -- free-space info address
    let (_, r) ← r.offsetR       -- end-of-file address
    let (_, r) ← r.offsetR       -- driver information block address
    if base ≠ .num 0 then .error (.hdfErr "Base address is not zero.")
    else do
      let (entry, _r) ← parseSTE r
      .ok ⟨version, base, some entry⟩
  else if version = 2 ∨ version = 3 then do
    let r ← r.setSizes
    let (_, r) ← r.byte
    let (base, r) ← r.offsetR
    let (_, r) ← r.offsetR       -- superblock extension address
    let (_, r) ← r.offsetR       -- end-of-file address
    let (rootAddr, r) ← r.offsetR
    match rootAddr with
    | .num a =>
      if a ≥ 0 then do
        let _ ← parseDOH sub r a.toNat
        .ok ⟨version, base, none⟩
      else .error (.plain "model boundary: negative object header address")
    | .undef => .error (.plain "model boundary: undefined object header address")
  else .error (.hdfErr "Unsupported Superblock version.")

/-- A trivial content parser used to instantiate `sub` in concrete runs whose
object headers contain no messages. -/
def subNoop : Nat → Nat → BReader → Except HErr BReader := fun _ _ r => .ok r

/-! ## Dataspace decoding (`hdf5.Dataspace.decode` / `_decodeArray`,
source lines 947-966)

An n-D value is a nested array of elements.  `datatype.decode(element, heap)`
is abstracted by a leaf function `dec` (for variable-length datatypes it
resolves the element against the global heap; for all other classes it is the
identity).

The source recursion is
`data[j] = this._decodeArray(datatype, data[j], shape, dimension + 1)` —
a five-parameter function called with four arguments, so inside the recursive
call `globalHeap = shape` (the list), `shape = dimension + 1` (a number,
modelled `JSShape.notList`) and `dimension = undefined` (modelled `none`).
There `shape[dimension]` is `undefined`, so both inner loops run zero times
(`i < undefined` is false) and `dimension === shape.length - 1` is false
(`shape.length` of a number is `undefined`). -/

inductive NDArr where
  | leaf (v : Nat)
  | node (xs : List NDArr)
deriving Repr

/-- `shape` as it flows through `_decodeArray`: a proper list on the outer
call, the number `dimension + 1` on the (buggy) recursive call. -/
inductive JSShape where
  | lst (ss : List Nat)
  | notList

/-- One application of `datatype.decode` on a stored element; shape-conformant
data only ever presents leaves here. -/
def jsDecodeElem (dec : Nat → Nat) : NDArr → NDArr
  | .leaf v => .leaf (dec v)
  | .node xs => .node xs

/-- `shape[dimension]` used as the loop bound: a `Nat` when defined, `0`
iterations otherwise (a JavaScript `j < undefined` comparison is false). -/
def jsShapeAt (shape : JSShape) (dim : Option Nat) : Nat :=
  match shape, dim with
  | .lst ss, some d => if d < ss.length then ss.getD d 0 else 0
  | _, _ => 0

/-- `dimension === shape.length - 1` with JavaScript semantics: false whenever
either operand is not a number. -/
def jsIsLastDim (shape : JSShape) (dim : Option Nat) : Bool :=
  match shape, dim with
  | .lst ss, some d => (d : Int) == (ss.length : Int) - 1
  | _, _ => false

mutual

/-- `hdf5.Dataspace._decodeArray`. -/
def decodeArray (dec : Nat → Nat) (shape : JSShape) (dim : Option Nat) :
    NDArr → NDArr
  | .leaf v => .leaf v
  | .node xs =>
    if jsIsLastDim shape dim then
      .node (decodeLeafRun dec (jsShapeAt shape dim) 0 xs)
    else
      .node (decodeChildRun dec (jsShapeAt shape dim) 0 xs)

/-- The leaf loop `for i < size: data[i] = datatype.decode(data[i], heap)`. -/
def decodeLeafRun (dec : Nat → Nat) (size i : Nat) : List NDArr → List NDArr
  | [] => []
  | x :: rest =>
    (if i < size then jsDecodeElem dec x else x) :: decodeLeafRun dec size (i + 1) rest

/-- The nested loop `for j < size: data[j] = this._decodeArray(datatype,
data[j], shape, dimension + 1)` — the recursive call with the shifted
argument list described above. -/
def decodeChildRun (dec : Nat → Nat) (size j : Nat) : List NDArr → List NDArr
  | [] => []
  | x :: rest =>
    (if j < size then decodeArray dec .notList none x else x) ::
      decodeChildRun dec size (j + 1) rest

end

/-- `hdf5.Dataspace.decode` (source lines 947-952): scalar dataspaces decode
the single element, otherwise `_decodeArray` starts at dimension 0. -/
def dataspaceDecode (dec : Nat → Nat) (dims : List Nat) (data : NDArr) : NDArr :=
  if dims.length = 0 then jsDecodeElem dec data
  else decodeArray dec (.lst dims) (some 0) data

mutual

/-- The behaviour the specification describes for `decode`: traverse the
value and replace every leaf via `Datatype.decode` (with the given global
heap, abstracted by the same `dec`). -/
def specDecode (dec : Nat → Nat) : NDArr → NDArr
  | .leaf v => .leaf (dec v)
  | .node xs => .node (specDecodeList dec xs)

/-- List form of `specDecode` (structural helper). -/
def specDecodeList (dec : Nat → Nat) : List NDArr → List NDArr
  | [] => []
  | x :: rest => specDecode dec x :: specDecodeList dec rest

end

/-! ## LZF filter (`hdf5.Filter._lzf`, source lines 1392-1445)

Two passes over the compressed input: a size-computing dry run with all the
validity checks, then an unchecked copy pass into the allocated output.  The
output is modelled as a function `Nat → Nat` so that "never writes out of
bounds" can be expressed as "indices outside `[0, size)` are untouched". -/

/-- Pass 1 (`o` accounting with truncation / negative-back-reference checks).
Mirrors the source: a literal run checks `i > input.length` after advancing;
a back-reference checks byte availability before the extension and offset
bytes and rejects a negative `ref`. -/
def lzfSizeGo (input : List Nat) (i o : Nat) : Except Unit Nat :=
  if hi : i < input.length then
    let c := input.getD i 0
    if c < 32 then
      let i2 := i + 1 + (c + 1)
      if i2 > input.length then .error ()
      else lzfSizeGo input i2 (o + (c + 1))
    else
      let len := c >>> 5
      let i1 := i + 1
      if i1 ≥ input.length then .error ()
      else if len = 7 then
        let len2 := len + input.getD i1 0
        let i2 := i1 + 1
        if i2 ≥ input.length then .error ()
        else
          let rf : Int := (o : Int) - (((c &&& 0x1f) <<< 8 : Nat) : Int) - 1 -
            (input.getD i2 0 : Int)
          if rf < 0 then .error ()
          else lzfSizeGo input (i2 + 1) (o + len2 + 2)
      else
        let rf : Int := (o : Int) - (((c &&& 0x1f) <<< 8 : Nat) : Int) - 1 -
          (input.getD i1 0 : Int)
        if rf < 0 then .error ()
        else lzfSizeGo input (i1 + 1) (o + len + 2)
  else .ok o
termination_by input.length - i
decreasing_by all_goals omega

def lzfSize (input : List Nat) : Except Unit Nat := lzfSizeGo input 0 0

/-- Reading the output array at a possibly negative index:
`output[negative]` is `undefined`, which stores as `0` —
only reachable on inputs pass 1 rejects. -/
def outRead (out : Nat → Nat) (idx : Int) : Nat :=
  if idx < 0 then 0 else out idx.toNat

/-- `output.set(input.subarray(i, i + c), o)`: `subarray` clamps to the input
length, so `cnt = min c (input.length - i)` bytes are written. -/
def copyLit (input : List Nat) (i o cnt : Nat) (out : Nat → Nat) : Nat → Nat :=
  (List.range cnt).foldl
    (fun f t => Function.update f (o + t) (input.getD (i + t) 0)) out

/-- The overlapping back-reference copy
`do { output[o++] = output[ref++]; } while (--length)` — byte by byte, each
read seeing the writes made so far. -/
def copyRef (len : Nat) (rf : Int) (o : Nat) (out : Nat → Nat) : Nat → Nat :=
  (List.range len).foldl
    (fun f t => Function.update f (o + t) (outRead f (rf + t))) out

/-- Pass 2: the unchecked copy loop of `_lzf`.  Returns the output and the
final write cursor. -/
def lzfCopyGo (input : List Nat) (i o : Nat) (out : Nat → Nat) :
    (Nat → Nat) × Nat :=
  if hi : i < input.length then
    let c := input.getD i 0
    let i1 := i + 1
    if c < 32 then
      let c1 := c + 1
      lzfCopyGo input (i1 + c1) (o + c1)
        (copyLit input i1 o (min c1 (input.length - i1)) out)
    else
      let len := c >>> 5
      if len = 7 then
        let len2 := len + input.getD i1 0
        let i2 := i1 + 1
        let rf : Int := (o : Int) - (((c &&& 0x1f) <<< 8 : Nat) : Int) - 1 -
          (input.getD i2 0 : Int)
        lzfCopyGo input (i2 + 1) (o + len2 + 2) (copyRef (len2 + 2) rf o out)
      else
        let rf : Int := (o : Int) - (((c &&& 0x1f) <<< 8 : Nat) : Int) - 1 -
          (input.getD i1 0 : Int)
        lzfCopyGo input (i1 + 1) (o + len + 2) (copyRef (len + 2) rf o out)
  else (out, o)
termination_by input.length - i
decreasing_by all_goals omega

def lzfCopy (input : List Nat) (out : Nat → Nat) : (Nat → Nat) × Nat :=
  lzfCopyGo input 0 0 out

/-- The well-formed LZF token streams as the specification describes them
(§4.9): each control byte `c` starts either a literal run whose `c + 1` bytes
must all be present, or a back-reference whose extension byte (when
`c >>> 5 = 7`) and offset byte must be present and whose back-offset
`((c & 0x1f) << 8 | next) + 1` must not reach before the start of the output
(for byte values `x | next = x + next` since `next < 256`; the model uses the
sum, exactly as the source's `ref` arithmetic does). -/
def lzfValid (input : List Nat) (i o : Nat) : Bool :=
  if hi : i < input.length then
    let c := input.getD i 0
    if c < 32 then
      -- literal run of c + 1 bytes at i + 1: all must be present
      decide (i + 1 + (c + 1) ≤ input.length) &&
        lzfValid input (i + 1 + (c + 1)) (o + (c + 1))
    else if c >>> 5 = 7 then
      -- extension byte at i + 1 and offset byte at i + 1 + 1 must be present
      decide (i + 1 + 1 < input.length) &&
        decide (((c &&& 0x1f) <<< 8) + input.getD (i + 1 + 1) 0 + 1 ≤ o) &&
        lzfValid input (i + 1 + 1 + 1) (o + (c >>> 5 + input.getD (i + 1) 0) + 2)
    else
      -- offset byte at i + 1 must be present
      decide (i + 1 < input.length) &&
        decide (((c &&& 0x1f) <<< 8) + input.getD (i + 1) 0 + 1 ≤ o) &&
        lzfValid input (i + 1 + 1) (o + (c >>> 5) + 2)
  else true
termination_by input.length - i
decreasing_by all_goals omega

/-! ## Chunk reassembly (`hdf5.Variable.data`, chunked case,
source lines 229-295)

The chunked branch walks the raw-chunk B-tree nodes; each node yields the
chunk bytes, its `fields` (the chunk offset coordinates, `dimensionality`
many — the trailing entry is the stripped element axis) and a `filterMask`.
The filter pipeline is abstracted as a list of byte-transformers (DEFLATE /
LZF `Filter.decode` on success).  Byte buffers are `List Nat`; the dense
output is built as a function `Nat → Nat` initialised to `0` (a fresh
`Uint8Array`) and finally materialised with its exact length.  Out-of-range
`Uint8Array` reads yield `undefined`, which stores as `0`: `List.getD _ _ 0`. -/

structure ChunkNode where
  data : List Nat
  fields : List Nat
  filterMask : Nat

/-- `for i < filters.length: if ((filterMask & (1 << i)) === 0) chunk =
filters[i].decode(chunk)`. -/
def applyFilterChain (filters : List (List Nat → List Nat)) (mask : Nat)
    (data : List Nat) : List Nat :=
  (List.range filters.length).foldl
    (fun chunk i => if mask &&& (1 <<< i) = 0 then (filters.getD i id) chunk else chunk)
    data

/-- `data_strides[i]`: the loop sets `strides[last] = 1` and
`strides[i] = ds[i+1] * strides[i+1]`, i.e. the suffix product of the
dimensions after `i`. -/
def dataStrides (ds : List Nat) (i : Nat) : Nat := ((ds.drop (i + 1)).prod)

/-- The carry loop at the top of each scatter iteration
(`for i = max_dim; i >= 0; i--`): when the chunk cursor overflowed axis `i`,
reset that axis (`chunk_pos[i] = 0; data_pos[i] = chunk_offset[i]`) and, for
`i > 0`, increment axis `i - 1` of both cursors; stop at the first axis in
range. -/
def carryLoop (cs : List Nat) (off : Nat → Nat) :
    Nat → (Nat → Nat) → (Nat → Nat) → ((Nat → Nat) × (Nat → Nat))
  | i, cp, dp =>
    if cp i ≥ cs.getD i 0 then
      let cp1 := Function.update cp i 0
      let dp1 := Function.update dp i (off i)
      match i with
      | 0 => (cp1, dp1)
      | i' + 1 =>
        carryLoop cs off i' (Function.update cp1 i' (cp1 i' + 1))
          (Function.update dp1 i' (dp1 i' + 1))
    else (cp, dp)

/-- The bounds-check-and-index loop (`for i = 0; i < length; i++`): stop with
`inbounds = false` at the first coordinate reaching the data shape, otherwise
accumulate `data_pos[i] * data_strides[i]`. -/
def boundsIndex (ds : List Nat) (strifn : Nat → Nat) (dp : Nat → Nat)
    (len : Nat) : Bool × Nat :=
  (List.range len).foldl
    (fun st i =>
      if st.1 then
        if dp i ≥ ds.getD i 0 then (false, st.2) else (st.1, st.2 + dp i * strifn i)
      else st)
    (true, 0)

/-- The byte-copy loop `while (target_offset < target_end)
data[target_offset++] = chunk[chunk_offset++]`. -/
def copyItem (chunk : List Nat) (itemSize src dst : Nat) (out : Nat → Nat) :
    Nat → Nat :=
  (List.range itemSize).foldl
    (fun f t => Function.update f (dst + t) (chunk.getD (src + t) 0)) out

/-- One iteration of the scatter loop: carry-normalise the cursors, compute
the bounds check and flat index, copy the element when in bounds, then
advance the fastest axis of both cursors. -/
def codeScatterStep (itemSize : Nat) (cs ds : List Nat) (chunk : List Nat)
    (off : Nat → Nat) (maxDim len : Nat)
    (st : (Nat → Nat) × (Nat → Nat) × (Nat → Nat)) (k : Nat) :
    (Nat → Nat) × (Nat → Nat) × (Nat → Nat) :=
  let cd := carryLoop cs off maxDim st.1 st.2.1
  let bi := boundsIndex ds (dataStrides ds) cd.2 len
  let newOut :=
    if bi.1 then copyItem chunk itemSize (k * itemSize) (bi.2 * itemSize) st.2.2
    else st.2.2
  (Function.update cd.1 maxDim (cd.1 maxDim + 1),
   Function.update cd.2 maxDim (cd.2 maxDim + 1),
   newOut)

/-- The per-chunk scatter of `Variable.data`: `chunk_pos` starts at zero,
`data_pos` at `chunk_offset` (the node's `fields`), and the loop runs
`chunk_index` from `0` to `prod(chunk_shape) - 1`. -/
def scatterChunk (itemSize : Nat) (cs ds : List Nat) (chunk : List Nat)
    (fields : List Nat) (out : Nat → Nat) : Nat → Nat :=
  ((List.range cs.prod).foldl
    (codeScatterStep itemSize cs ds chunk (fun i => fields.getD i 0)
      (ds.length - 1) (fields.length - 1))
    ((fun _ => 0), (fun i => fields.getD i 0), out)).2.2

/-- `hdf5.Variable.data`, chunked layout: allocate
`prod(data_shape) * item_size` zero bytes, scatter every (filtered) chunk,
return the buffer. -/
def variableDataChunked (itemSize : Nat) (cs ds : List Nat)
    (filters : List (List Nat → List Nat)) (nodes : List ChunkNode) :
    List Nat :=
  (List.range (ds.prod * itemSize)).map
    (nodes.foldl
      (fun out node =>
        scatterChunk itemSize cs ds
          (applyFilterChain filters node.filterMask node.data) node.fields out)
      (fun _ => 0))

/-- Coordinate `i` of the `k`-th chunk position in row-major order over the
chunk shape: digit `(k / prod cs[i+1..]) % cs[i]`. -/
def chunkPosDigit (cs : List Nat) (k i : Nat) : Nat :=
  (k / ((cs.drop (i + 1)).prod)) % cs.getD i 0

/-- The oracle the claim describes: for each chunk, enumerate the chunk
positions in row-major order; at position `k` the data coordinates are
`chunk_offset + chunk_pos`; skip the position when any coordinate reaches
`data_shape`, otherwise copy `item_size` bytes to flat index
`dot(chunk_offset + chunk_pos, data_strides) * item_size`. -/
def oracleScatterStep (itemSize : Nat) (cs ds : List Nat) (chunk : List Nat)
    (fields : List Nat) (o : Nat → Nat) (k : Nat) : Nat → Nat :=
  if decide (∀ i < ds.length, fields.getD i 0 + chunkPosDigit cs k i < ds.getD i 0) then
    copyItem chunk itemSize (k * itemSize)
      ((Finset.range ds.length).sum
        (fun i => (fields.getD i 0 + chunkPosDigit cs k i) * dataStrides ds i) *
        itemSize) o
  else o

def oracleScatterChunk (itemSize : Nat) (cs ds : List Nat) (chunk : List Nat)
    (fields : List Nat) (out : Nat → Nat) : Nat → Nat :=
  (List.range cs.prod).foldl (oracleScatterStep itemSize cs ds chunk fields) out

/-- Oracle version of `variableDataChunked`: identical chunk list, filter
application and output allocation; only the scatter is replaced by the
row-major enumeration. -/
def oracleData (itemSize : Nat) (cs ds : List Nat)
    (filters : List (List Nat → List Nat)) (nodes : List ChunkNode) :
    List Nat :=
  (List.range (ds.prod * itemSize)).map
    (nodes.foldl
      (fun out node =>
        oracleScatterChunk itemSize cs ds
          (applyFilterChain filters node.filterMask node.data) node.fields out)
      (fun _ => 0))

/-- Proof scaffolding: the chunk-cursor component of the carry loop (its
`data_pos` component mirrors it in lockstep). -/
def carryCp (cs : List Nat) : Nat → (Nat → Nat) → (Nat → Nat)
  | i, cp =>
    if cp i ≥ cs.getD i 0 then
      let cp1 := Function.update cp i 0
      match i with
      | 0 => cp1
      | i' + 1 => carryCp cs i' (Function.update cp1 i' (cp1 i' + 1))
    else cp

/-- Proof scaffolding: the digits of `k` over `cs` as a cursor function
(zero beyond the shape's length). -/
def digitFun (cs : List Nat) (k : Nat) : Nat → Nat :=
  fun i => if i < cs.length then chunkPosDigit cs k i else 0

/-- Proof scaffolding: the chunk cursor as the carry loop sees it when the
pending increment has propagated down to axis `i`: axes above `i` already
reset to zero, axis `i` carrying `+1`, axes below still holding the digits of
`k`. -/
def midState (cs : List Nat) (k i : Nat) : Nat → Nat :=
  fun j =>
    if j < cs.length then
      if j = i then chunkPosDigit cs k i + 1
      else if i < j then 0
      else chunkPosDigit cs k j
    else 0

/-- Proof scaffolding: the chunk cursor at the start of scatter iteration
`n` (before carry normalisation): zeros at `n = 0`, otherwise the digits of
`n - 1` with the fastest axis incremented. -/
def preCp (cs : List Nat) (maxDim : Nat) : Nat → Nat → Nat
  | 0 => fun _ => 0
  | m + 1 => Function.update (digitFun cs m) maxDim (digitFun cs m maxDim + 1)

/-! ## Concrete byte buffers for the superblock theorems -/

/-- A minimal version-0 superblock followed by a cache-type-0 root
symbol-table entry; base address zero; offset/length widths 8. -/
def superblockV0Bytes : List Nat :=
  [0x89, 0x48, 0x44, 0x46, 0x0D, 0x0A, 0x1A, 0x0A,
   0, 0, 0, 0, 0, 8, 8, 0, 4, 0, 16, 0, 0, 0, 0, 0] ++ List.replicate 72 0

/-- A well-formed version-1 superblock prefix (through the indexed-storage
internal-node K field). -/
def superblockV1Bytes : List Nat :=
  [0x89, 0x48, 0x44, 0x46, 0x0D, 0x0A, 0x1A, 0x0A,
   1, 0, 0, 0, 0, 8, 8, 0, 4, 0, 16, 0, 0, 0, 0, 0,
   0, 0, 0, 0, 0, 0, 0, 0]

/-- A version-2 superblock whose base address is `1` (nonzero) and whose
root object header at offset 48 is a version-1 header with zero messages. -/
def superblockV2BaseOneBytes : List Nat :=
  [0x89, 0x48, 0x44, 0x46, 0x0D, 0x0A, 0x1A, 0x0A,
   2, 8, 8, 0,
   1, 0, 0, 0, 0, 0, 0, 0,
   0, 0, 0, 0, 0, 0, 0, 0,
   0, 0, 0, 0, 0, 0, 0, 0,
   48, 0, 0, 0, 0, 0, 0, 0,
   0, 0, 0, 0,
   1, 0, 0, 0, 0, 0, 0, 0,
   0, 0, 0, 0, 0, 0, 0, 0]

/-- Signature followed by the unsupported superblock version byte 4. -/
def superblockV4Bytes : List Nat :=
  [0x89, 0x48, 0x44, 0x46, 0x0D, 0x0A, 0x1A, 0x0A, 4]

/-! # Theorems -/

/-- Shared bind-inversion helper for `Except` computations. -/
theorem bind_ok_elim {ε α β : Type} {x : Except ε α} {f : α → Except ε β} {b : β}
    (h : (x >>= f) = .ok b) : ∃ a, x = .ok a ∧ f a = .ok b := by
  cases hx : x with
  | error e => rw [hx] at h; exact absurd h (by simp [Bind.bind, Except.bind])
  | ok a => rw [hx] at h; exact ⟨a, rfl, by simpa [Bind.bind, Except.bind] using h⟩

/-- A successful `seek` puts the reader at the requested absolute position. -/
theorem seek_position {r r2 : BReader} {p : Nat} (h : r.seek p = .ok r2) :
    r2.position = p := by
  unfold BReader.seek at h
  split at h
  · exact absurd h (by simp)
  · simp only [Except.ok.injEq] at h
    subst h
    simp [BReader.position]

/-- A successful `skip` advances the position by exactly `n`. -/
theorem skip_position {r r2 : BReader} {n : Nat} (h : r.skip n = .ok r2) :
    r2.position = r.position + n := by
  unfold BReader.skip at h
  split at h
  · exact absurd h (by simp)
  · simp only [Except.ok.injEq] at h
    subst h
    simp [BReader.position]
    omega

/-- C5 counterexample: for a NIL message (type 0) the dispatcher returns
`false` immediately, before the `seek(position); skip(size)` restore, so the
reader stays at the payload start instead of `position + size`: with
`size = 8` the position is unchanged (0, not 8). -/
theorem readMessage_nil_skips_restore :
    readMessage subNoop 0x00 8 0 { buf := List.replicate 16 0 } =
      .ok (false, none, { buf := List.replicate 16 0 }) ∧
    ({ buf := List.replicate 16 0 } : BReader).position + 8 ≠
      ({ buf := List.replicate 16 0 } : BReader).position :=
  ⟨rfl, by decide⟩

/-- C5 (amended): for every message type in the dispatch table other than
NIL, whatever the per-type content parser consumed, a successful dispatch
leaves the reader exactly at payload start plus the declared message size;
NIL instead returns immediately, leaving the reader at the payload start. -/
theorem readMessage_restores_position :
    ∀ (sub : Nat → Nat → BReader → Except HErr BReader) (r : BReader)
      (type size flags : Nat) (next : Bool) (contOpt : Option OCont)
      (r2 : BReader),
      type ∈ msgTypes → type ≠ 0x00 →
      readMessage sub type size flags r = .ok (next, contOpt, r2) →
      r2.position = r.position + size := by
  intro sub r type size flags next contOpt r2 hmem h0 h
  rw [readMessage] at h
  rw [if_neg h0] at h
  by_cases h10 : type = 0x10
  · rw [if_pos h10] at h
    obtain ⟨⟨o, r1⟩, _, h⟩ := bind_ok_elim h
    try dsimp only [] at h
    obtain ⟨⟨l, rl⟩, _, h⟩ := bind_ok_elim h
    try dsimp only [] at h
    obtain ⟨rs, hs, h⟩ := bind_ok_elim h
    obtain ⟨rk, hk, h⟩ := bind_ok_elim h
    try dsimp only [] at h
    simp only [Except.ok.injEq, Prod.mk.injEq] at h
    obtain ⟨-, -, hr2⟩ := h
    subst hr2
    rw [skip_position hk, seek_position hs]
  · rw [if_neg h10, if_pos hmem] at h
    obtain ⟨r1, _, h⟩ := bind_ok_elim h
    obtain ⟨rs, hs, h⟩ := bind_ok_elim h
    try dsimp only [] at h
    obtain ⟨rk, hk, h⟩ := bind_ok_elim h
    try dsimp only [] at h
    simp only [Except.ok.injEq, Prod.mk.injEq] at h
    obtain ⟨-, -, hr2⟩ := h
    subst hr2
    rw [skip_position hk, seek_position hs]

/-- Witness for `readMessage_restores_position`: a symbol-table message
(type 0x11) of declared size 4 on a fresh 16-byte reader ends at position 4. -/
theorem readMessage_restores_position_check :
    (0x11 ∈ msgTypes ∧ (0x11 : Nat) ≠ 0x00) ∧
    ({ buf := List.replicate 16 0, off := 0, pos := 4 } : BReader).position =
      ({ buf := List.replicate 16 0 } : BReader).position + 4 :=
  ⟨⟨by decide, by decide⟩,
    readMessage_restores_position subNoop { buf := List.replicate 16 0 }
      0x11 4 0 true none _ (by decide) (by decide) rfl⟩

/-- C7: on a well-formed version-1 superblock, `File.read` does not succeed:
after reading the indexed-storage internal-node K it calls `this.skip(2)` on
the `hdf5.File` object (which has no `skip` method), raising a `TypeError`
instead of consuming the two reserved bytes.  Version bytes outside 0-3 do
fail with the unsupported-version `hdf5.Error`. -/
theorem fileRead_v1_crashes_with_typeError :
    fileRead subNoop superblockV1Bytes =
      .error (.typeErr "this.skip is not a function") ∧
    fileRead subNoop superblockV4Bytes =
      .error (.hdfErr "Unsupported Superblock version.") :=
  ⟨rfl, rfl⟩

/-- C6 counterexample: a version-2 superblock whose base-address field is 1
still yields a root group — the v2/v3 branch of `File.read` never checks the
base address. -/
theorem fileRead_v2_ignores_base_address :
    fileRead subNoop superblockV2BaseOneBytes = .ok ⟨2, .num 1, none⟩ ∧
    JSNum.num 1 ≠ JSNum.num 0 :=
  ⟨rfl, by decide⟩

/-- C6 (amended): only superblock versions 0 and 1 enforce a zero base
address: whenever `File.read` succeeds with version ≤ 1, the parsed base
address is zero; versions 2 and 3 read the field but never check it. -/
theorem baseAddress_checked_only_for_v0_v1 :
    ∀ (sub : Nat → Nat → BReader → Except HErr BReader) (buf : List Nat)
      (res : FileResult),
      fileRead sub buf = .ok res → res.version = 0 ∨ res.version = 1 →
      res.baseAddress = .num 0 := by
  intro sub buf res h hver
  rw [fileRead] at h
  simp only [Bind.bind, Except.bind] at h
  repeat' split at h
  all_goals (try cases h)
  all_goals simp_all [FileResult.baseAddress, FileResult.version]

/-- Witness for `baseAddress_checked_only_for_v0_v1`: the version-0 file
above succeeds and indeed carries base address zero. -/
theorem baseAddress_checked_witness :
    fileRead subNoop superblockV0Bytes =
      .ok ⟨0, .num 0, some ⟨.num 0, .num 0, 0, none, none⟩⟩ ∧
    (⟨0, .num 0, some ⟨.num 0, .num 0, 0, none, none⟩⟩ : FileResult).baseAddress
      = .num 0 :=
  ⟨rfl,
    baseAddress_checked_only_for_v0_v1 subNoop superblockV0Bytes _ rfl
      (Or.inl rfl)⟩

/-- C4: `Dataspace.decode` resolves leaves only for 1-D data.  For arrays of
two or more dimensions the recursive `_decodeArray` call drops `globalHeap`
from the argument list, so the inner call sees `shape = dimension + 1` (a
number) and `dimension = undefined`, its loops run zero times, and every
nested level is returned with its leaves unresolved — for any leaf decoder
`dec`, a 2×1 array is returned unchanged, while the specified behaviour
decodes both leaves (and the 1-D case does decode). -/
theorem nested_decode_drops_global_heap :
    ∀ dec : Nat → Nat,
      dataspaceDecode dec [2, 1] (.node [.node [.leaf 10], .node [.leaf 20]]) =
        .node [.node [.leaf 10], .node [.leaf 20]] ∧
      specDecode dec (.node [.node [.leaf 10], .node [.leaf 20]]) =
        .node [.node [.leaf (dec 10)], .node [.leaf (dec 20)]] ∧
      dataspaceDecode dec [2] (.node [.leaf 10, .leaf 20]) =
        .node [.leaf (dec 10), .leaf (dec 20)] := by
  intro dec
  refine ⟨?_, ?_, ?_⟩ <;>
    simp [dataspaceDecode, decodeArray, decodeChildRun, decodeLeafRun,
      jsDecodeElem, jsIsLastDim, jsShapeAt, specDecode, specDecodeList]

/-- C2: for a parsed class-0 fixed-point datatype with `(flags & 0xfff6) = 0`
and a supported size, the claim says the signed names are chosen exactly when
`flags & 0x08 ≠ 0`.  The code instead tests `(flags && 0x08) === 0`, a
logical AND, which takes the signed branch for every nonzero `flags`: with
`flags = 1` (big-endian bit only, sign bit clear) and size 1 the getter
returns `"int8"` although `flags & 0x08 = 0`. -/
theorem fixedPoint_type_flags1_signed :
    Datatype.type (.mk 0 1 1 none [] []) = .ok "int8" ∧
    (1 : Nat) &&& 0xfff6 = 0 ∧ (1 : Nat) &&& 0x08 = 0 :=
  ⟨rfl, by decide, by decide⟩

/-- C3: the claim says `littleEndian` for classes 0 and 1 is
`(flags & 0x01) == 0`.  The code reads `this.flags` — the field is
`this._flags` — so the getter compares `undefined & 0x01` with `0` and
returns `true` even when bit 0 of the parsed flags is set: here a class-0
datatype with `flags = 1`. -/
theorem littleEndian_ignores_flags :
    Datatype.littleEndian (.mk 0 2 1 none [] []) = true ∧
    (1 : Nat) &&& 0x01 ≠ 0 :=
  ⟨rfl, by decide⟩

/-- C9 counterexample: the root group is constructed with
`parentPath = ''`, `name = ''`, and `'' !== '/'`, so its path is
`'' + '/' + '' = "/"`, not the empty string the claim asserts. -/
theorem root_path_is_slash_not_empty :
    rootGroupPath = "/" ∧ rootGroupPath ≠ "" :=
  ⟨rfl, by decide⟩

/-- C9 (amended): the root group's path is `"/"`; immediate children of the
root get `"/" ++ name` (the constructor special-cases a parent path of
`"/"`), and a child of any group whose path is not `"/"` gets
`parentPath ++ "/" ++ name`. -/
theorem path_composition :
    rootGroupPath = "/" ∧
    (∀ name : String, groupPath rootGroupPath name = "/" ++ name) ∧
    (∀ parentPath name : String, parentPath ≠ "/" →
      groupPath parentPath name = parentPath ++ "/" ++ name) := by
  refine ⟨rfl, fun name => ?_, fun parentPath name h => ?_⟩
  · simp [groupPath, rootGroupPath]
  · simp [groupPath, h]

/-- Witness for `path_composition`: a grandchild of the root. -/
theorem path_composition_check :
    ("/a" : String) ≠ "/" ∧ groupPath "/a" "b" = "/a/b" :=
  ⟨by decide, (path_composition.2.2 "/a" "b" (by decide)).trans (by decide)⟩

/-- C10: `Group.group(path)` returns the directly-named child when the map
has the whole path as a key; otherwise, when the path contains `'/'` at first
index `i`, it equals `group(head).group(tail)` whenever `group(head)`
exists, and `null` when it does not; with no `'/'` and no direct child it
returns `null` — never an error. -/
theorem group_lookup_behaviour :
    ∀ (g : GroupNode) (p : List Char),
      (∀ c, g.children.lookup p = some c → g.group p = some c) ∧
      (g.children.lookup p = none →
        ∀ i, p.findIdx? (· == '/') = some i →
          (∀ sub, g.group (p.take i) = some sub →
            g.group p = sub.group (p.drop (i + 1))) ∧
          (g.group (p.take i) = none → g.group p = none)) ∧
      (g.children.lookup p = none → p.findIdx? (· == '/') = none →
        g.group p = none) := by
  intro g p
  refine ⟨fun c hc => ?_, fun hnone i hi => ⟨fun sub hsub => ?_, fun hsub => ?_⟩,
    fun hnone hfi => ?_⟩
  · rw [GroupNode.group, hc]
  · rw [GroupNode.group, hnone, hi]
    simp only [hsub]
  · rw [GroupNode.group, hnone, hi]
    simp only [hsub]
  · rw [GroupNode.group, hnone, hfi]

/-- Witness for `group_lookup_behaviour`: in a two-level tree, looking up
`"a/b"` first fails as a single name, then goes through `group("a")` and
`group("b")`. -/
theorem group_lookup_behaviour_check :
    (GroupNode.mk [(['a'], GroupNode.mk [(['b'], GroupNode.mk [])])]).group
        ['a', '/', 'b'] =
      (GroupNode.mk [(['b'], GroupNode.mk [])]).group ['b'] := by
  have hsub : (GroupNode.mk [(['a'], GroupNode.mk [(['b'], GroupNode.mk [])])]).group
      ['a'] = some (GroupNode.mk [(['b'], GroupNode.mk [])]) :=
    (group_lookup_behaviour _ ['a']).1 _ rfl
  have h := ((group_lookup_behaviour
      (GroupNode.mk [(['a'], GroupNode.mk [(['b'], GroupNode.mk [])])])
      ['a', '/', 'b']).2.1 rfl 1 rfl).1 _ hsub
  exact h

/-- Unfolding step for the literal-run copy. -/
theorem copyLit_succ (input : List Nat) (i o m : Nat) (out : Nat → Nat) :
    copyLit input i o (m + 1) out =
      Function.update (copyLit input i o m out) (o + m) (input.getD (i + m) 0) := by
  unfold copyLit
  rw [List.range_succ, List.foldl_append]
  rfl

/-- The literal-run copy only writes inside `[o, o + cnt)`. -/
theorem copyLit_untouched (input : List Nat) (i o : Nat) :
    ∀ (cnt : Nat) (out : Nat → Nat) (t : Nat), t < o ∨ o + cnt ≤ t →
      copyLit input i o cnt out t = out t := by
  intro cnt
  induction cnt with
  | zero => intro out t ht; rfl
  | succ m ih =>
    intro out t ht
    rw [copyLit_succ, Function.update_noteq (by omega)]
    exact ih out t (by omega)

/-- Unfolding step for the back-reference copy. -/
theorem copyRef_succ (rf : Int) (o m : Nat) (out : Nat → Nat) :
    copyRef (m + 1) rf o out =
      Function.update (copyRef m rf o out) (o + m)
        (outRead (copyRef m rf o out) (rf + m)) := by
  unfold copyRef
  rw [List.range_succ, List.foldl_append]
  rfl

/-- The back-reference copy only writes inside `[o, o + len)`. -/
theorem copyRef_untouched (rf : Int) (o : Nat) :
    ∀ (len : Nat) (out : Nat → Nat) (t : Nat), t < o ∨ o + len ≤ t →
      copyRef len rf o out t = out t := by
  intro len
  induction len with
  | zero => intro out t ht; rfl
  | succ m ih =>
    intro out t ht
    rw [copyRef_succ, Function.update_noteq (by omega)]
    exact ih out t (by omega)

/-- Joint induction for the LZF passes: pass 1 errs on invalid token
streams and accepts valid ones; on acceptance its size bounds the start
cursor and matches pass 2's final write cursor, while pass 2 leaves every
output slot outside `[o, n)` untouched. -/
theorem lzf_pass_spec (input : List Nat) :
    ∀ (m i o : Nat), input.length - i ≤ m →
      (lzfValid input i o = false → lzfSizeGo input i o = .error ()) ∧
      (lzfValid input i o = true → ∃ n, lzfSizeGo input i o = .ok n) ∧
      (∀ n, lzfSizeGo input i o = .ok n → o ≤ n ∧
        ∀ out, (lzfCopyGo input i o out).2 = n ∧
          ∀ t, t < o ∨ n ≤ t → (lzfCopyGo input i o out).1 t = out t) := by
  intro m
  induction m with
  | zero =>
    intro i o hm
    have hi : ¬ i < input.length := by omega
    rw [lzfValid, lzfSizeGo]
    simp only [dif_neg hi]
    refine ⟨fun hv => absurd hv (by simp), fun _ => ⟨o, rfl⟩, fun n hn => ?_⟩
    obtain rfl : o = n := by simpa using hn
    refine ⟨le_refl o, fun out => ?_⟩
    rw [lzfCopyGo]
    simp only [dif_neg hi]
    exact ⟨trivial, fun t ht => trivial⟩
  | succ m ih =>
    intro i o hm
    by_cases hi : i < input.length
    case neg =>
      rw [lzfValid, lzfSizeGo]
      simp only [dif_neg hi]
      refine ⟨fun hv => absurd hv (by simp), fun _ => ⟨o, rfl⟩, fun n hn => ?_⟩
      obtain rfl : o = n := by simpa using hn
      refine ⟨le_refl o, fun out => ?_⟩
      rw [lzfCopyGo]
      simp only [dif_neg hi]
      exact ⟨trivial, fun t ht => trivial⟩
    case pos =>
      rw [lzfValid, lzfSizeGo]
      simp only [dif_pos hi]
      by_cases hc : input.getD i 0 < 32
      · -- literal run
        simp only [if_pos hc]
        refine ⟨fun hv => ?_, fun hv => ?_, fun n hn => ?_⟩
        · rcases Bool.and_eq_false_iff.mp hv with h1 | h2
          · have hb := of_decide_eq_false h1
            rw [if_pos (by omega)]
          · by_cases hb : i + 1 + (input.getD i 0 + 1) > input.length
            · rw [if_pos hb]
            · rw [if_neg hb]
              exact (ih _ _ (by omega)).1 h2
        · obtain ⟨h1, h2⟩ := Bool.and_eq_true_iff.mp hv
          have hb := of_decide_eq_true h1
          rw [if_neg (by omega)]
          exact (ih _ _ (by omega)).2.1 h2
        · split at hn
          · simp at hn
          · rename_i hb
            obtain ⟨hle, hcopy⟩ := (ih _ _ (by omega)).2.2 n hn
            refine ⟨by omega, fun out => ?_⟩
            rw [lzfCopyGo]
            simp only [dif_pos hi, if_pos hc]
            obtain ⟨hc2, hc3⟩ :=
              hcopy (copyLit input (i + 1) o
                (min (input.getD i 0 + 1) (input.length - (i + 1))) out)
            refine ⟨hc2, fun t ht => ?_⟩
            rw [hc3 t (by omega)]
            exact copyLit_untouched _ _ _ _ _ _ (by omega)
      · -- back-reference
        simp only [if_neg hc]
        by_cases h7 : input.getD i 0 >>> 5 = 7
        · simp only [if_pos h7]
          refine ⟨fun hv => ?_, fun hv => ?_, fun n hn => ?_⟩
          · by_cases hb1 : i + 1 ≥ input.length
            · rw [if_pos hb1]
            · rw [if_neg hb1]
              by_cases hb2 : i + 1 + 1 ≥ input.length
              · rw [if_pos hb2]
              · rw [if_neg hb2]
                by_cases hrf : ((o : Int) -
                    (((input.getD i 0 &&& 31) <<< 8 : Nat) : Int) - 1 -
                    (input.getD (i + 1 + 1) 0 : Int)) < 0
                · rw [if_pos hrf]
                · rw [if_neg hrf]
                  rcases Bool.and_eq_false_iff.mp hv with h12 | h3
                  · exfalso
                    rcases Bool.and_eq_false_iff.mp h12 with h1 | h2
                    · exact (of_decide_eq_false h1) (by omega)
                    · exact (of_decide_eq_false h2) (by omega)
                  · exact (ih _ _ (by omega)).1 h3
          · obtain ⟨h12, h3⟩ := Bool.and_eq_true_iff.mp hv
            obtain ⟨h1, h2⟩ := Bool.and_eq_true_iff.mp h12
            have hb := of_decide_eq_true h1
            have hofs := of_decide_eq_true h2
            rw [if_neg (by omega), if_neg (by omega), if_neg (by omega)]
            exact (ih _ _ (by omega)).2.1 h3
          · split at hn
            · simp at hn
            · split at hn
              · simp at hn
              · split at hn
                · simp at hn
                · rename_i hb1 hb2 hrf
                  obtain ⟨hle, hcopy⟩ := (ih _ _ (by omega)).2.2 n hn
                  refine ⟨by omega, fun out => ?_⟩
                  rw [lzfCopyGo]
                  simp only [dif_pos hi, if_neg hc, if_pos h7]
                  obtain ⟨hc2, hc3⟩ :=
                    hcopy (copyRef (input.getD i 0 >>> 5 + input.getD (i + 1) 0 + 2) _ o out)
                  refine ⟨hc2, fun t ht => ?_⟩
                  rw [hc3 t (by omega)]
                  exact copyRef_untouched _ _ _ _ _ (by omega)
        · simp only [if_neg h7]
          refine ⟨fun hv => ?_, fun hv => ?_, fun n hn => ?_⟩
          · by_cases hb1 : i + 1 ≥ input.length
            · rw [if_pos hb1]
            · rw [if_neg hb1]
              by_cases hrf : ((o : Int) -
                  (((input.getD i 0 &&& 31) <<< 8 : Nat) : Int) - 1 -
                  (input.getD (i + 1) 0 : Int)) < 0
              · rw [if_pos hrf]
              · rw [if_neg hrf]
                rcases Bool.and_eq_false_iff.mp hv with h12 | h3
                · exfalso
                  rcases Bool.and_eq_false_iff.mp h12 with h1 | h2
                  · exact (of_decide_eq_false h1) (by omega)
                  · exact (of_decide_eq_false h2) (by omega)
                · exact (ih _ _ (by omega)).1 h3
          · obtain ⟨h12, h3⟩ := Bool.and_eq_true_iff.mp hv
            obtain ⟨h1, h2⟩ := Bool.and_eq_true_iff.mp h12
            have hb := of_decide_eq_true h1
            have hofs := of_decide_eq_true h2
            rw [if_neg (by omega), if_neg (by omega)]
            exact (ih _ _ (by omega)).2.1 h3
          · split at hn
            · simp at hn
            · split at hn
              · simp at hn
              · rename_i hb1 hrf
                obtain ⟨hle, hcopy⟩ := (ih _ _ (by omega)).2.2 n hn
                refine ⟨by omega, fun out => ?_⟩
                rw [lzfCopyGo]
                simp only [dif_pos hi, if_neg hc, if_neg h7]
                obtain ⟨hc2, hc3⟩ :=
                  hcopy (copyRef (input.getD i 0 >>> 5 + 2) _ o out)
                refine ⟨hc2, fun t ht => ?_⟩
                rw [hc3 t (by omega)]
                exact copyRef_untouched _ _ _ _ _ (by omega)

/-- C8: the LZF filter's first pass rejects exactly the malformed token
streams — truncated literal runs, truncated back-references, and
back-references reaching before the start of the output — and on every
accepted input its computed size equals the number of bytes the unchecked
copy pass writes: the copy pass's final cursor is the computed size and no
output slot at or beyond it is ever written. -/
theorem lzf_decode_safety :
    ∀ input : List Nat,
      (lzfSize input = .error () ↔ lzfValid input 0 0 = false) ∧
      (∀ n, lzfSize input = .ok n → ∀ out0 : Nat → Nat,
        (lzfCopy input out0).2 = n ∧
        ∀ t, n ≤ t → (lzfCopy input out0).1 t = out0 t) := by
  intro input
  have hspec := lzf_pass_spec input input.length 0 0 (by omega)
  constructor
  · constructor
    · intro herr
      cases hval : lzfValid input 0 0 with
      | false => rfl
      | true =>
        obtain ⟨n, hn⟩ := hspec.2.1 hval
        rw [lzfSize] at herr
        rw [hn] at herr
        exact absurd herr (by simp)
    · intro hval
      exact hspec.1 hval
  · intro n hn out0
    obtain ⟨-, hcopy⟩ := hspec.2.2 n hn
    obtain ⟨h2, h3⟩ := hcopy out0
    exact ⟨h2, fun t ht => h3 t (Or.inr ht)⟩

/-- Witness for `lzf_decode_safety`: the input `[2, 5, 6, 7, 32, 0]` (a
3-byte literal run followed by a length-3 back-reference at offset 1) is
accepted with size 6, the copy pass ends at cursor 6, and the slot at index 9
stays at its initial value. -/
theorem lzf_decode_safety_check :
    lzfSize [2, 5, 6, 7, 32, 0] = .ok 6 ∧
    (lzfCopy [2, 5, 6, 7, 32, 0] (fun _ => 0)).2 = 6 ∧
    (lzfCopy [2, 5, 6, 7, 32, 0] (fun _ => 0)).1 9 = 0 := by
  have hs : lzfSize [2, 5, 6, 7, 32, 0] = .ok 6 := by
    simp [lzfSize, lzfSizeGo]
    decide
  have h := (lzf_decode_safety [2, 5, 6, 7, 32, 0]).2 6 hs (fun _ => 0)
  exact ⟨hs, h.1, h.2 9 (by omega)⟩

/-! ### Chunk-scatter lemmas (C1) -/

/-- Every suffix product of a positive-product shape is positive. -/
theorem suffixProd_pos {cs : List Nat} (hp : 0 < cs.prod) (j : Nat) :
    0 < (cs.drop j).prod := by
  apply List.prod_pos
  intro a ha
  by_contra h0
  have ha0 : a = 0 := by omega
  have : cs.prod = 0 := List.prod_eq_zero (ha0 ▸ List.drop_subset j cs ha)
  omega

/-- Every in-range element of a positive-product shape is positive. -/
theorem shape_pos {cs : List Nat} (hp : 0 < cs.prod) {i : Nat}
    (hi : i < cs.length) : 0 < cs.getD i 0 := by
  by_contra h0
  have h00 : cs.getD i 0 = 0 := by omega
  have hmem : (0 : Nat) ∈ cs := by
    rw [← h00, List.getD_eq_getElem cs 0 hi]
    exact List.getElem_mem hi
  have := List.prod_eq_zero hmem
  omega

/-- Factor the suffix product at an in-range index. -/
theorem suffixProd_factor {cs : List Nat} {i : Nat} (hi : i < cs.length) :
    (cs.drop i).prod = cs.getD i 0 * (cs.drop (i + 1)).prod := by
  rw [List.drop_eq_getElem_cons hi, List.prod_cons, List.getD_eq_getElem cs 0 hi]

/-- Suffix products divide earlier suffix products. -/
theorem suffixProd_dvd (cs : List Nat) {j i : Nat} (h : j ≤ i) :
    (cs.drop i).prod ∣ (cs.drop j).prod := by
  have h1 : List.drop (i - j) (List.drop j cs) = List.drop i cs := by
    rw [List.drop_drop]
    congr 1
    omega
  have h2 : List.take (i - j) (List.drop j cs) ++ List.drop i cs =
      List.drop j cs := by
    rw [← h1]
    exact List.take_append_drop _ _
  have h3 := congrArg List.prod h2
  rw [List.prod_append] at h3
  exact ⟨(List.take (i - j) (List.drop j cs)).prod, by rw [← h3, Nat.mul_comm]⟩

/-- The carry loop moves `data_pos` in lockstep with `chunk_pos`: if
`data_pos = chunk_offset + chunk_pos` pointwise on entry, the loop returns
`(cp, chunk_offset + cp)` where `cp` is the carried chunk cursor. -/
theorem carry_eq_carryCp (cs : List Nat) (off : Nat → Nat) :
    ∀ (i : Nat) (cp dp : Nat → Nat), dp = (fun j => off j + cp j) →
      carryLoop cs off i cp dp =
        (carryCp cs i cp, fun j => off j + carryCp cs i cp j) := by
  intro i
  induction i with
  | zero =>
    intro cp dp hdp
    rw [carryLoop, carryCp]
    by_cases hge : cp 0 ≥ cs.getD 0 0
    · simp only [if_pos hge, Prod.mk.injEq]
      refine ⟨trivial, ?_⟩
      funext j
      by_cases hj : j = 0
      · rw [hj]
        simp [Function.update_same]
      · simp [Function.update_noteq hj, hdp]
    · simp only [if_neg hge, Prod.mk.injEq]
      exact ⟨trivial, hdp⟩
  | succ i2 ih =>
    intro cp dp hdp
    rw [carryLoop, carryCp]
    by_cases hge : cp (i2 + 1) ≥ cs.getD (i2 + 1) 0
    · simp only [if_pos hge]
      refine ih _ _ ?_
      funext j
      by_cases hj : j = i2
      · rw [hj]
        have hne : (i2 : Nat) ≠ i2 + 1 := by omega
        simp [Function.update_same, Function.update_noteq hne, hdp]
        omega
      · by_cases hj2 : j = i2 + 1
        · rw [hj2]
          have hne : (i2 : Nat) + 1 ≠ i2 := by omega
          simp [Function.update_noteq hne, Function.update_same]
        · simp [Function.update_noteq hj, Function.update_noteq hj2, hdp]
    · simp only [if_neg hge, Prod.mk.injEq]
      exact ⟨trivial, hdp⟩

/-- When the suffix product past axis `i` divides `k + 1` and digit `i` of
`k` is not saturated, digit `i` of `k + 1` is digit `i` of `k` plus one. -/
theorem digit_succ_of_dvd (cs : List Nat) (k i : Nat) (hi : i < cs.length)
    (hdvd : (cs.drop (i + 1)).prod ∣ (k + 1))
    (hlt : chunkPosDigit cs k i + 1 < cs.getD i 0) :
    chunkPosDigit cs (k + 1) i = chunkPosDigit cs k i + 1 := by
  have hsucc : (k + 1) / (cs.drop (i + 1)).prod =
      k / (cs.drop (i + 1)).prod + 1 := by
    rw [Nat.succ_div, if_pos hdvd]
  have h1 : (1 : Nat) % cs.getD i 0 = 1 := Nat.mod_eq_of_lt (by omega)
  calc chunkPosDigit cs (k + 1) i
      = (k / (cs.drop (i + 1)).prod + 1) % cs.getD i 0 := by
        rw [chunkPosDigit, hsucc]
    _ = ((k / (cs.drop (i + 1)).prod) % cs.getD i 0 + 1 % cs.getD i 0) %
        cs.getD i 0 := by rw [Nat.add_mod]
    _ = (chunkPosDigit cs k i + 1) % cs.getD i 0 := by rw [h1]; rfl
    _ = chunkPosDigit cs k i + 1 := Nat.mod_eq_of_lt hlt

/-- When digit `i` of `k` is saturated and the suffix product past axis `i`
divides `k + 1`, the suffix product including axis `i` divides `k + 1`. -/
theorem overflow_dvd (cs : List Nat) (k i : Nat) (hi : i < cs.length)
    (hdvd : (cs.drop (i + 1)).prod ∣ (k + 1))
    (heq : chunkPosDigit cs k i + 1 = cs.getD i 0) :
    (cs.drop i).prod ∣ (k + 1) := by
  set P1 := (cs.drop (i + 1)).prod with hP1
  set s := cs.getD i 0 with hs
  have hq : s * (k / P1 / s) + (k / P1) % s = k / P1 := Nat.div_add_mod _ s
  have hd : (k / P1) % s = chunkPosDigit cs k i := rfl
  have hstep : k / P1 + 1 = s * (k / P1 / s + 1) := by
    rw [Nat.mul_add, Nat.mul_one]
    omega
  have hsucc : (k + 1) / P1 = k / P1 + 1 := by
    rw [Nat.succ_div, if_pos hdvd]
  have hfull : (k + 1) = P1 * ((k + 1) / P1) := (Nat.mul_div_cancel' hdvd).symm
  rw [suffixProd_factor hi, ← hs, ← hP1]
  exact ⟨k / P1 / s + 1, by rw [hfull, hsucc, hstep]; ring⟩

/-- When digit `i` of `k` is not saturated (and the suffix product past `i`
divides `k + 1`), the suffix product including axis `i` cannot divide
`k + 1`. -/
theorem not_dvd_of_digit_small (cs : List Nat) (k i : Nat)
    (hp : 0 < cs.prod) (hi : i < cs.length)
    (hdvd : (cs.drop (i + 1)).prod ∣ (k + 1))
    (hlt : chunkPosDigit cs k i + 1 < cs.getD i 0) :
    ¬ (cs.drop i).prod ∣ (k + 1) := by
  intro hPi
  have h1 := digit_succ_of_dvd cs k i hi hdvd hlt
  obtain ⟨w, hw⟩ := hPi
  have hPp : 0 < (cs.drop (i + 1)).prod := suffixProd_pos hp (i + 1)
  have hdiv : (k + 1) / (cs.drop (i + 1)).prod = cs.getD i 0 * w := by
    rw [hw, suffixProd_factor hi,
      show cs.getD i 0 * (cs.drop (i + 1)).prod * w =
        (cs.drop (i + 1)).prod * (cs.getD i 0 * w) by ring]
    exact Nat.mul_div_cancel_left _ hPp
  have h0 : chunkPosDigit cs (k + 1) i = 0 := by
    rw [chunkPosDigit, hdiv, Nat.mul_mod_right]
  omega

/-- Pointwise unfolding of `midState`. -/
theorem midState_apply (cs : List Nat) (k i j : Nat) :
    midState cs k i j =
      if j < cs.length then
        if j = i then chunkPosDigit cs k i + 1
        else if i < j then 0 else chunkPosDigit cs k j
      else 0 := rfl

/-- Pointwise unfolding of `digitFun`. -/
theorem digitFun_apply (cs : List Nat) (k j : Nat) :
    digitFun cs k j =
      if j < cs.length then chunkPosDigit cs k j else 0 := rfl

/-- The digits of `k + 1` seen as the result of carrying: with the carry
arrived at axis `i` (suffix divides `k + 1`) and digit `i` unsaturated, the
mid-carry state is exactly the digit vector of `k + 1`. -/
theorem midState_eq_digit_succ (cs : List Nat) (k i : Nat)
    (hp : 0 < cs.prod) (hi : i < cs.length)
    (hdvd : (cs.drop (i + 1)).prod ∣ (k + 1))
    (hlt : chunkPosDigit cs k i + 1 < cs.getD i 0) :
    midState cs k i = digitFun cs (k + 1) := by
  funext j
  rw [midState_apply, digitFun_apply]
  by_cases hjlen : j < cs.length
  · rw [if_pos hjlen, if_pos hjlen]
    rcases lt_trichotomy j i with hj | hj | hj
    · rw [if_neg (show ¬ j = i by omega), if_neg (show ¬ i < j by omega)]
      have hnd : ¬ (cs.drop (j + 1)).prod ∣ (k + 1) := fun hd2 =>
        not_dvd_of_digit_small cs k i hp hi hdvd hlt
          ((suffixProd_dvd cs (show j + 1 ≤ i by omega)).trans hd2)
      rw [chunkPosDigit, chunkPosDigit, Nat.succ_div, if_neg hnd]
      norm_num
    · rw [if_pos hj]
      rw [hj]
      exact (digit_succ_of_dvd cs k i hi hdvd hlt).symm
    · rw [if_neg (show ¬ j = i by omega), if_pos hj]
      have hdv : (cs.drop j).prod ∣ (k + 1) :=
        (suffixProd_dvd cs (show i + 1 ≤ j by omega)).trans hdvd
      obtain ⟨w, hw⟩ := hdv
      have hPp : 0 < (cs.drop (j + 1)).prod := suffixProd_pos hp (j + 1)
      have hdiv : (k + 1) / (cs.drop (j + 1)).prod = cs.getD j 0 * w := by
        rw [hw, suffixProd_factor hjlen,
          show cs.getD j 0 * (cs.drop (j + 1)).prod * w =
            (cs.drop (j + 1)).prod * (cs.getD j 0 * w) by ring]
        exact Nat.mul_div_cancel_left _ hPp
      rw [chunkPosDigit, hdiv, Nat.mul_mod_right]
  · rw [if_neg hjlen, if_neg hjlen]

/-- Reshaping the carry state: resetting the saturated axis `i2 + 1` and
bumping axis `i2` turns the mid-carry state at `i2 + 1` into the mid-carry
state at `i2`. -/
theorem midState_step (cs : List Nat) (k i2 : Nat) (hi : i2 + 1 < cs.length) :
    Function.update (Function.update (midState cs k (i2 + 1)) (i2 + 1) 0) i2
      (Function.update (midState cs k (i2 + 1)) (i2 + 1) 0 i2 + 1) =
      midState cs k i2 := by
  have hv : Function.update (midState cs k (i2 + 1)) (i2 + 1) 0 i2 =
      chunkPosDigit cs k i2 := by
    rw [Function.update_noteq (show i2 ≠ i2 + 1 by omega), midState_apply,
      if_pos (show i2 < cs.length by omega),
      if_neg (show ¬ i2 = i2 + 1 by omega),
      if_neg (show ¬ i2 + 1 < i2 by omega)]
  funext j
  by_cases hj : j = i2
  · rw [hj, Function.update_same, hv, midState_apply,
      if_pos (show i2 < cs.length by omega), if_pos rfl]
  · rw [Function.update_noteq hj]
    by_cases hj2 : j = i2 + 1
    · rw [hj2, Function.update_same, midState_apply, if_pos hi,
        if_neg (show ¬ i2 + 1 = i2 by omega),
        if_pos (show i2 < i2 + 1 by omega)]
    · rw [Function.update_noteq hj2, midState_apply, midState_apply]
      by_cases hjlen : j < cs.length
      · rw [if_pos hjlen, if_pos hjlen,
          if_neg (show ¬ j = i2 + 1 from hj2), if_neg (show ¬ j = i2 from hj)]
        by_cases hgt : i2 < j
        · rw [if_pos (show i2 + 1 < j by omega), if_pos hgt]
        · rw [if_neg (show ¬ i2 + 1 < j by omega), if_neg hgt]
      · rw [if_neg hjlen, if_neg hjlen]

/-- The odometer lemma: carrying the incremented digit vector of `k` yields
the digit vector of `k + 1`. -/
theorem carryCp_mid (cs : List Nat) (k : Nat) (hk : k + 1 < cs.prod) :
    ∀ i, i < cs.length → ((cs.drop (i + 1)).prod ∣ (k + 1)) →
      carryCp cs i (midState cs k i) = digitFun cs (k + 1) := by
  have hp : 0 < cs.prod := by omega
  intro i
  induction i with
  | zero =>
    intro hi hdvd
    have hd : chunkPosDigit cs k 0 < cs.getD 0 0 :=
      Nat.mod_lt _ (shape_pos hp hi)
    have hmid0 : midState cs k 0 0 = chunkPosDigit cs k 0 + 1 := by
      rw [midState_apply, if_pos hi, if_pos rfl]
    by_cases hlt : chunkPosDigit cs k 0 + 1 < cs.getD 0 0
    · rw [carryCp, if_neg (by rw [hmid0]; omega)]
      exact midState_eq_digit_succ cs k 0 hp hi hdvd hlt
    · exfalso
      have heq : chunkPosDigit cs k 0 + 1 = cs.getD 0 0 := by omega
      have hdv0 := overflow_dvd cs k 0 hi hdvd heq
      rw [List.drop_zero] at hdv0
      exact absurd (Nat.le_of_dvd (by omega) hdv0) (by omega)
  | succ i2 ih =>
    intro hi hdvd
    have hd : chunkPosDigit cs k (i2 + 1) < cs.getD (i2 + 1) 0 :=
      Nat.mod_lt _ (shape_pos hp hi)
    have hmid : midState cs k (i2 + 1) (i2 + 1) =
        chunkPosDigit cs k (i2 + 1) + 1 := by
      rw [midState_apply, if_pos hi, if_pos rfl]
    by_cases hlt : chunkPosDigit cs k (i2 + 1) + 1 < cs.getD (i2 + 1) 0
    · rw [carryCp, if_neg (by rw [hmid]; omega)]
      exact midState_eq_digit_succ cs k (i2 + 1) hp hi hdvd hlt
    · have heq : chunkPosDigit cs k (i2 + 1) + 1 = cs.getD (i2 + 1) 0 := by
        omega
      have hdvd2 := overflow_dvd cs k (i2 + 1) hi hdvd heq
      rw [carryCp]
      simp only [if_pos (show midState cs k (i2 + 1) (i2 + 1) ≥
        cs.getD (i2 + 1) 0 by rw [hmid]; omega)]
      rw [midState_step cs k i2 hi]
      exact ih (by omega) hdvd2

/-- One-step unfolding of the bounds/index loop. -/
theorem boundsIndex_succ (ds : List Nat) (strifn dp : Nat → Nat) (len : Nat) :
    boundsIndex ds strifn dp (len + 1) =
      (if (boundsIndex ds strifn dp len).1 then
        (if dp len ≥ ds.getD len 0 then (false, (boundsIndex ds strifn dp len).2)
         else ((boundsIndex ds strifn dp len).1,
           (boundsIndex ds strifn dp len).2 + dp len * strifn len))
       else boundsIndex ds strifn dp len) := by
  unfold boundsIndex
  rw [List.range_succ, List.foldl_append]
  rfl

/-- The loop's `inbounds` flag is the full bounds check. -/
theorem boundsIndex_fst (ds : List Nat) (strifn dp : Nat → Nat) :
    ∀ len, (boundsIndex ds strifn dp len).1 =
      decide (∀ i < len, dp i < ds.getD i 0) := by
  intro len
  induction len with
  | zero => simp [boundsIndex]
  | succ n ih =>
    rw [boundsIndex_succ]
    by_cases hall : ∀ i < n, dp i < ds.getD i 0
    · rw [ih, decide_eq_true hall, if_pos rfl]
      by_cases hn : dp n ≥ ds.getD n 0
      · rw [if_pos hn]
        symm
        rw [decide_eq_false_iff_not]
        intro hx
        exact absurd (hx n (by omega)) (by omega)
      · rw [if_neg hn]
        show true = decide (∀ i < n + 1, dp i < ds.getD i 0)
        symm
        rw [decide_eq_true_eq]
        intro i hilt
        by_cases hin : i < n
        · exact hall i hin
        · have hieq : i = n := by omega
          rw [hieq]
          omega
    · rw [ih, decide_eq_false hall, if_neg (show ¬ (false = true) by simp),
        ih, decide_eq_false hall]
      symm
      rw [decide_eq_false_iff_not]
      intro hx
      exact hall (fun i hi => hx i (by omega))

/-- When in bounds, the loop's index is the dot product with the strides. -/
theorem boundsIndex_snd (ds : List Nat) (strifn dp : Nat → Nat) :
    ∀ len, (∀ i < len, dp i < ds.getD i 0) →
      (boundsIndex ds strifn dp len).2 =
        (Finset.range len).sum (fun i => dp i * strifn i) := by
  intro len
  induction len with
  | zero => intro h; simp [boundsIndex]
  | succ n ih =>
    intro hall
    rw [boundsIndex_succ, boundsIndex_fst,
      decide_eq_true (fun i hi => hall i (by omega)), if_pos rfl,
      if_neg (show ¬ dp n ≥ ds.getD n 0 from by
        have := hall n (by omega); omega)]
    rw [ih (fun i hi => hall i (by omega)), Finset.sum_range_succ]

/-- The digit vector of `0` is the zero cursor. -/
theorem digitFun_zero (cs : List Nat) : digitFun cs 0 = fun _ => 0 := by
  funext j
  rw [digitFun_apply]
  by_cases hj : j < cs.length
  · rw [if_pos hj, chunkPosDigit, Nat.zero_div, Nat.zero_mod]
  · rw [if_neg hj]

/-- Carrying the scatter loop's pre-iteration cursor yields the digit vector
of the iteration counter. -/
theorem carryCp_preCp (cs : List Nat) (maxDim : Nat)
    (hmax : maxDim + 1 = cs.length) (n : Nat) (hn : n < cs.prod) :
    carryCp cs maxDim (preCp cs maxDim n) = digitFun cs n := by
  have hp : 0 < cs.prod := by omega
  cases n with
  | zero =>
    rw [carryCp, if_neg (show ¬ preCp cs maxDim 0 maxDim ≥ cs.getD maxDim 0
      from by
        have := shape_pos hp (show maxDim < cs.length by omega)
        simp only [preCp]
        omega)]
    rw [digitFun_zero]
    rfl
  | succ m =>
    have hpre : preCp cs maxDim (m + 1) = midState cs m maxDim := by
      funext j
      show Function.update (digitFun cs m) maxDim (digitFun cs m maxDim + 1) j
        = midState cs m maxDim j
      by_cases hj : j = maxDim
      · rw [hj, Function.update_same, midState_apply,
          if_pos (show maxDim < cs.length by omega), if_pos rfl,
          digitFun_apply, if_pos (show maxDim < cs.length by omega)]
      · rw [Function.update_noteq hj, digitFun_apply, midState_apply]
        by_cases hjl : j < cs.length
        · rw [if_pos hjl, if_pos hjl, if_neg hj,
            if_neg (show ¬ maxDim < j by omega)]
        · rw [if_neg hjl, if_neg hjl]
    rw [hpre]
    exact carryCp_mid cs m (by omega) maxDim (by omega)
      (by rw [show maxDim + 1 = cs.length from hmax, List.drop_length]; simp)

/-- Loop invariant for the chunk scatter: after `n` iterations the chunk
cursor holds the bumped digit vector of `n - 1`, the data cursor tracks it at
offset `chunk_offset`, and the output agrees with the oracle's first `n`
row-major positions. -/
theorem scatter_loop_inv (itemSize : Nat) (cs ds chunk fields : List Nat)
    (out : Nat → Nat) (hr : 0 < ds.length) (hcs : cs.length = ds.length)
    (hf : fields.length = ds.length + 1) :
    ∀ n, n ≤ cs.prod →
      (List.range n).foldl
        (codeScatterStep itemSize cs ds chunk (fun i => fields.getD i 0)
          (ds.length - 1) (fields.length - 1))
        ((fun _ => 0), (fun i => fields.getD i 0), out) =
      (preCp cs (ds.length - 1) n,
       fun j => fields.getD j 0 + preCp cs (ds.length - 1) n j,
       (List.range n).foldl (oracleScatterStep itemSize cs ds chunk fields)
         out) := by
  intro n
  induction n with
  | zero =>
    intro h0
    simp only [List.range_zero, List.foldl_nil, Prod.mk.injEq]
    refine ⟨rfl, ?_, trivial⟩
    funext j
    simp [preCp]
  | succ n ih =>
    intro hsn
    have hpr : 0 < cs.prod := by omega
    have hmaxlt : ds.length - 1 < cs.length := by omega
    rw [List.range_succ, List.foldl_append, List.foldl_append,
      ih (by omega)]
    simp only [List.foldl_cons, List.foldl_nil]
    have hfull : carryLoop cs (fun i => fields.getD i 0) (ds.length - 1)
        (preCp cs (ds.length - 1) n)
        (fun j => fields.getD j 0 + preCp cs (ds.length - 1) n j) =
        (digitFun cs n, fun j => fields.getD j 0 + digitFun cs n j) := by
      rw [carry_eq_carryCp cs (fun i => fields.getD i 0) (ds.length - 1)
        (preCp cs (ds.length - 1) n) _ rfl]
      rw [carryCp_preCp cs (ds.length - 1) (by omega) n (by omega)]
    simp only [codeScatterStep]
    rw [hfull]
    simp only []
    rw [show fields.length - 1 = ds.length from by omega]
    have hpq : (∀ i < ds.length,
        fields.getD i 0 + digitFun cs n i < ds.getD i 0) ↔
        (∀ i < ds.length,
          fields.getD i 0 + chunkPosDigit cs n i < ds.getD i 0) := by
      constructor
      · intro h i hi
        have := h i hi
        rwa [digitFun_apply, if_pos (by omega)] at this
      · intro h i hi
        rw [digitFun_apply, if_pos (by omega)]
        exact h i hi
    have hout : (if (boundsIndex ds (dataStrides ds)
          (fun j => fields.getD j 0 + digitFun cs n j) ds.length).1 then
        copyItem chunk itemSize (n * itemSize)
          ((boundsIndex ds (dataStrides ds)
            (fun j => fields.getD j 0 + digitFun cs n j) ds.length).2 *
            itemSize)
          ((List.range n).foldl
            (oracleScatterStep itemSize cs ds chunk fields) out)
        else (List.range n).foldl
          (oracleScatterStep itemSize cs ds chunk fields) out) =
        oracleScatterStep itemSize cs ds chunk fields
          ((List.range n).foldl
            (oracleScatterStep itemSize cs ds chunk fields) out) n := by
      by_cases hP : ∀ i < ds.length,
          fields.getD i 0 + chunkPosDigit cs n i < ds.getD i 0
      · have hPc := hpq.mpr hP
        rw [boundsIndex_fst, decide_eq_true hPc, if_pos rfl,
          boundsIndex_snd ds (dataStrides ds) _ ds.length hPc]
        have hsum : (Finset.range ds.length).sum
            (fun i => (fields.getD i 0 + digitFun cs n i) * dataStrides ds i) =
            (Finset.range ds.length).sum
            (fun i => (fields.getD i 0 + chunkPosDigit cs n i) *
              dataStrides ds i) := by
          refine Finset.sum_congr rfl (fun i hi => ?_)
          rw [digitFun_apply, if_pos (by
            have := Finset.mem_range.mp hi
            omega)]
        rw [hsum, oracleScatterStep, decide_eq_true hP, if_pos rfl]
      · have hPc : ¬ ∀ i < ds.length,
            fields.getD i 0 + digitFun cs n i < ds.getD i 0 :=
          fun h => hP (hpq.mp h)
        rw [boundsIndex_fst, decide_eq_false hPc,
          if_neg (show ¬ (false = true) by simp),
          oracleScatterStep, decide_eq_false hP,
          if_neg (show ¬ (false = true) by simp)]
    rw [hout]
    simp only [Prod.mk.injEq]
    refine ⟨?_, ?_, trivial⟩
    · simp only [preCp]
    · funext j
      simp only [preCp]
      by_cases hj : j = ds.length - 1
      · rw [hj, Function.update_same, Function.update_same]
        omega
      · rw [Function.update_noteq hj, Function.update_noteq hj]

/-- Single-chunk equivalence: the cursor-based scatter of `Variable.data`
equals the row-major oracle scatter. -/
theorem scatterChunk_eq_oracle (itemSize : Nat) (cs ds chunk fields : List Nat)
    (out : Nat → Nat) (hr : 0 < ds.length) (hcs : cs.length = ds.length)
    (hf : fields.length = ds.length + 1) :
    scatterChunk itemSize cs ds chunk fields out =
      oracleScatterChunk itemSize cs ds chunk fields out := by
  unfold scatterChunk oracleScatterChunk
  rw [scatter_loop_inv itemSize cs ds chunk fields out hr hcs hf cs.prod
    (le_refl _)]

/-- C1: for every chunked-layout dataset (nonempty data shape, chunk shape of
matching rank, every B-tree node carrying `rank + 1` offset fields),
`Variable.data` returns a buffer of exactly `prod(data_shape) * item_size`
bytes whose contents equal the oracle that, for each chunk (with filter `i`
applied in ascending order unless bit `i` of that chunk's `filterMask` is
set), copies each in-bounds chunk element to flat output index
`dot(chunk_offset + chunk_pos, data_strides) * item_size`, skipping positions
where any data coordinate reaches `data_shape`; slots never written stay
zero (both sides start from the zero-initialised allocation). -/
theorem chunked_data_matches_oracle :
    ∀ (itemSize : Nat) (cs ds : List Nat)
      (filters : List (List Nat → List Nat)) (nodes : List ChunkNode),
      0 < ds.length → cs.length = ds.length →
      (∀ node ∈ nodes, node.fields.length = ds.length + 1) →
      (variableDataChunked itemSize cs ds filters nodes).length =
        ds.prod * itemSize ∧
      variableDataChunked itemSize cs ds filters nodes =
        oracleData itemSize cs ds filters nodes := by
  intro itemSize cs ds filters nodes hr hcs hf
  constructor
  · unfold variableDataChunked
    rw [List.length_map, List.length_range]
  · unfold variableDataChunked oracleData
    have hfold : ∀ (ns : List ChunkNode) (out : Nat → Nat),
        (∀ node ∈ ns, node.fields.length = ds.length + 1) →
        ns.foldl
          (fun out node => scatterChunk itemSize cs ds
            (applyFilterChain filters node.filterMask node.data) node.fields
            out) out =
        ns.foldl
          (fun out node => oracleScatterChunk itemSize cs ds
            (applyFilterChain filters node.filterMask node.data) node.fields
            out) out := by
      intro ns
      induction ns with
      | nil => intro out h; rfl
      | cons nd rest ihn =>
        intro out h
        simp only [List.foldl_cons]
        rw [scatterChunk_eq_oracle itemSize cs ds _ nd.fields out hr hcs
          (h nd (by simp))]
        exact ihn _ (fun node hn => h node (by simp [hn]))
    rw [hfold nodes _ hf]

/-- Witness for `chunked_data_matches_oracle`: a 3×3 `uint8` dataset covered
by 2×2 chunks (boundary chunks overhanging the extent). -/
theorem chunked_data_matches_oracle_check :
    (0 < ([3, 3] : List Nat).length ∧
      ([2, 2] : List Nat).length = ([3, 3] : List Nat).length ∧
      (∀ node ∈ [(⟨[1, 2, 3, 4], [0, 0, 0], 0⟩ : ChunkNode),
          ⟨[5, 6, 7, 8], [0, 2, 0], 0⟩],
        node.fields.length = ([3, 3] : List Nat).length + 1)) ∧
    variableDataChunked 1 [2, 2] [3, 3] []
        [⟨[1, 2, 3, 4], [0, 0, 0], 0⟩, ⟨[5, 6, 7, 8], [0, 2, 0], 0⟩] =
      oracleData 1 [2, 2] [3, 3] []
        [⟨[1, 2, 3, 4], [0, 0, 0], 0⟩, ⟨[5, 6, 7, 8], [0, 2, 0], 0⟩] :=
  ⟨⟨by decide, by decide, by decide⟩,
    (chunked_data_matches_oracle 1 [2, 2] [3, 3] [] _ (by decide) (by decide)
      (by decide)).2⟩

end hdf5